import Mathlib

/-!
Verification of OpenTTD's `src/core/enum_type.hpp`.

The file defines a shallow embedding of the `EnumBitSet` class template and of
the enum increment/decrement helper operators, and proves the specification's
claims about them.

Modelling conventions:
* An enum value is modelled by its underlying integer (`to_underlying(v)`);
  for `EnumBitSet` operations that is a `Nat` (bit position), for the
  increment/decrement helpers an `Int` (the underlying type may be signed).
* `Tstorage` is an unsigned integer type with `w` value bits; a storage word
  is a `Nat`, and every conversion back to `Tstorage` (assignment of a wider
  intermediate, `static_cast<Tstorage>`) is an explicit `% 2 ^ w`.
* `1ULL << v` is the 64-bit shift `1 <<< v`, and `~(1ULL << v)` is the 64-bit
  complement `(2 ^ 64 - 1) ^^^ (1 <<< v)`.
* `Tend_value` is the `Nat` parameter `endv`.
-/

namespace EnumTypeHpp

/-- `EnumBitSet::MASK = std::numeric_limits<Tstorage>::max() >> (digits - Tend_value)`:
mask of valid values, for storage width `w` and exclusive bound `endv`. -/
def MASK (w endv : Nat) : Nat := (2 ^ w - 1) >>> (w - endv)

/-- The `EnumBitSet<Tenum, Tstorage, Tend_value>` template: a single private
storage word `data` of type `Tstorage` (width `w`), with exclusive valid bound
`endv`. -/
structure EnumBitSet (w endv : Nat) where
  data : Nat
deriving DecidableEq, Repr

namespace EnumBitSet

variable {w endv : Nat}

/-- Default constructor `EnumBitSet() : data(0)`. -/
def empty : EnumBitSet w endv := ⟨0⟩

/-- `Set(value)`: `this->data |= (1ULL << to_underlying(value))`; the 64-bit
intermediate is truncated back to `Tstorage` on assignment. -/
def Set (s : EnumBitSet w endv) (v : Nat) : EnumBitSet w endv :=
  ⟨(s.data ||| (1 <<< v)) % 2 ^ w⟩

/-- `Reset(value)`: `this->data &= ~(1ULL << to_underlying(value))`. -/
def Reset (s : EnumBitSet w endv) (v : Nat) : EnumBitSet w endv :=
  ⟨(s.data &&& ((2 ^ 64 - 1) ^^^ (1 <<< v))) % 2 ^ w⟩

/-- `Test(value)`: `(this->data & (1ULL << to_underlying(value))) != 0`. -/
def Test (s : EnumBitSet w endv) (v : Nat) : Bool :=
  (s.data &&& (1 <<< v)) != 0

/-- `Flip(value)`: `if (Test(value)) return Reset(value); else return Set(value);`. -/
def Flip (s : EnumBitSet w endv) (v : Nat) : EnumBitSet w endv :=
  if s.Test v then s.Reset v else s.Set v

/-- `All(other)`: `(this->data & other.data) == other.data`. -/
def All (s other : EnumBitSet w endv) : Bool :=
  (s.data &&& other.data) == other.data

/-- `Any(other)`: `(this->data & other.data) != 0`. -/
def Any (s other : EnumBitSet w endv) : Bool :=
  (s.data &&& other.data) != 0

/-- Explicit constructor `EnumBitSet(Tstorage data) : data(data & MASK)`. -/
def ofRaw (r : Nat) : EnumBitSet w endv := ⟨r &&& MASK w endv⟩

/-- Converting constructor `EnumBitSet(Tenum value) : data(0) { this->Set(value); }`. -/
def ofValue (v : Nat) : EnumBitSet w endv := Set empty v

/-- Constructor `EnumBitSet(std::initializer_list<const Tenum> values)`:
starts from `data(0)` and calls `Set` on each listed value in order. -/
def ofList (vs : List Nat) : EnumBitSet w endv :=
  vs.foldl (fun s v => s.Set v) empty

/-- `operator |`: `EnumBitSet{static_cast<Tstorage>(this->data | other.data)}` —
the cast truncates to the storage width, then the explicit constructor masks. -/
def or (a b : EnumBitSet w endv) : EnumBitSet w endv :=
  ofRaw ((a.data ||| b.data) % 2 ^ w)

/-- `operator &`: `EnumBitSet{static_cast<Tstorage>(this->data & other.data)}`. -/
def and (a b : EnumBitSet w endv) : EnumBitSet w endv :=
  ofRaw ((a.data &&& b.data) % 2 ^ w)

/-- `IsValid()`: `(this->data & MASK) == this->data`. -/
def IsValid (s : EnumBitSet w endv) : Bool :=
  (s.data &&& MASK w endv) == s.data

/-- `base()`: the raw storage word behind the bit-set. -/
def base (s : EnumBitSet w endv) : Nat := s.data

/-- The strict order induced by the defaulted `operator<=>`, which compares
the single member `data`. -/
def lt (a b : EnumBitSet w endv) : Prop := a.data < b.data

/-- The non-strict order induced by the defaulted `operator<=>`. -/
def le (a b : EnumBitSet w endv) : Prop := a.data ≤ b.data

/-- Bit-sets reachable through the public constructors followed by any sequence
of `Set`, `Reset`, `Flip` with in-range enum values and `operator|`/`operator&`
with arbitrary bit-set operands. -/
inductive Reachable (w endv : Nat) : EnumBitSet w endv → Prop where
  | ofDefault : Reachable w endv empty
  | ofSingle (v : Nat) (hv : v < endv) : Reachable w endv (ofValue v)
  | ofValues (vs : List Nat) (hvs : ∀ v ∈ vs, v < endv) : Reachable w endv (ofList vs)
  | ofWord (r : Nat) : Reachable w endv (ofRaw r)
  | set {s : EnumBitSet w endv} (hs : Reachable w endv s) (v : Nat) (hv : v < endv) :
      Reachable w endv (s.Set v)
  | reset {s : EnumBitSet w endv} (hs : Reachable w endv s) (v : Nat) (hv : v < endv) :
      Reachable w endv (s.Reset v)
  | flip {s : EnumBitSet w endv} (hs : Reachable w endv s) (v : Nat) (hv : v < endv) :
      Reachable w endv (s.Flip v)
  | orOp {s : EnumBitSet w endv} (hs : Reachable w endv s) (t : EnumBitSet w endv) :
      Reachable w endv (s.or t)
  | andOp {s : EnumBitSet w endv} (hs : Reachable w endv s) (t : EnumBitSet w endv) :
      Reachable w endv (s.and t)

end EnumBitSet

/-- Prefix `operator++` for an enum that opted into incrementing:
`e = static_cast<enum_type>(to_underlying(e) + 1)`, on the underlying integer. -/
def prefixInc (e : Int) : Int := e + 1

/-- Prefix `operator--`: `e = static_cast<enum_type>(to_underlying(e) - 1)`. -/
def prefixDec (e : Int) : Int := e - 1

/-- Postfix `operator++`: saves `e_org = e`, delegates the mutation to the
prefix form, returns `e_org`; modelled as the pair
(returned value, updated operand). -/
def postfixInc (e : Int) : Int × Int := (e, prefixInc e)

/-- Postfix `operator--`: symmetric, delegating to the prefix decrement. -/
def postfixDec (e : Int) : Int × Int := (e, prefixDec e)

namespace EnumBitSet

variable {w endv : Nat}

/-! ### Bit-level characterisations of the operations -/

/-- Two bit-sets with the same storage word are the same bit-set. -/
@[ext] theorem ext {a b : EnumBitSet w endv} (h : a.data = b.data) : a = b := by
  cases a; cases b; simpa using h

/-- Bit `i` of the valid-value mask is set exactly when `i < endv`, provided the
declared bound fits in the storage width (which the template requires: a larger
bound would shift by a negative amount, ill-formed in a constant expression). -/
theorem testBit_MASK (w endv i : Nat) (hw : endv ≤ w) :
    (MASK w endv).testBit i = decide (i < endv) := by
  unfold MASK
  rw [Nat.testBit_shiftRight, Nat.testBit_two_pow_sub_one]
  simp only [decide_eq_decide]
  omega

/-- The mask never exceeds the storage range. -/
theorem MASK_lt (w endv : Nat) : MASK w endv < 2 ^ w := by
  unfold MASK
  rw [Nat.shiftRight_eq_div_pow]
  calc (2 ^ w - 1) / 2 ^ (w - endv) ≤ 2 ^ w - 1 := Nat.div_le_self _ _
    _ < 2 ^ w := by have := Nat.pos_pow_of_pos w (by omega : 0 < 2); omega

/-- A storage word satisfying the masking invariant fits in the storage width. -/
theorem lt_two_pow_of_masked {w endv d : Nat} (h : d &&& MASK w endv = d) :
    d < 2 ^ w := by
  have h1 : d ≤ MASK w endv := h ▸ Nat.and_le_right
  exact Nat.lt_of_le_of_lt h1 (MASK_lt w endv)

/-- A set bit of a storage word satisfying the masking invariant lies below the
declared bound. -/
theorem testBit_lt_endv_of_masked {w endv d : Nat} (hw : endv ≤ w)
    (h : d &&& MASK w endv = d) {i : Nat} (hi : d.testBit i = true) : i < endv := by
  have := congrArg (fun x => x.testBit i) h
  simp only [Nat.testBit_land, testBit_MASK w endv i hw, hi, Bool.true_and] at this
  simpa using this.symm

/-- Masking twice is the same as masking once. -/
theorem land_land_self (r m : Nat) : (r &&& m) &&& m = r &&& m := by
  apply Nat.eq_of_testBit_eq
  intro i
  simp [Nat.testBit_land, Bool.and_assoc]

/-- Bit `i` of the word stored by `Set v`. -/
theorem testBit_Set_data (s : EnumBitSet w endv) (v i : Nat) :
    ((s.Set v).data).testBit i
      = (decide (i < w) && (s.data.testBit i || decide (v = i))) := by
  simp [Set, Nat.testBit_mod_two_pow, Nat.testBit_lor, Nat.one_shiftLeft,
    Nat.testBit_two_pow]

/-- Bit `i` of the word stored by `Reset v`: the 64-bit complement clears bit
`v` (and any bit at position 64 or above of the intermediate). -/
theorem testBit_Reset_data (s : EnumBitSet w endv) (v i : Nat) :
    ((s.Reset v).data).testBit i
      = (decide (i < w) && (s.data.testBit i && (decide (i < 64) ^^ decide (v = i)))) := by
  simp only [Reset, Nat.testBit_mod_two_pow, Nat.testBit_land, Nat.testBit_xor,
    Nat.one_shiftLeft, Nat.testBit_two_pow]
  rw [show (2 ^ 64 - 1 : Nat) = 2 ^ 64 - 1 from rfl, Nat.testBit_two_pow_sub_one]

/-- `Test v` reads exactly bit `v` of the storage word. -/
theorem Test_eq_testBit (s : EnumBitSet w endv) (v : Nat) :
    s.Test v = s.data.testBit v := by
  simp only [Test, Nat.one_shiftLeft, Nat.and_two_pow]
  cases h : s.data.testBit v <;> simp [h, Nat.pos_pow_of_pos, Nat.pos_iff_ne_zero]

/-! ### Preservation of the masking invariant -/

/-- `Set` with an in-range value preserves the masking invariant. -/
theorem Set_masked {s : EnumBitSet w endv} (hw : endv ≤ w)
    (hs : s.data &&& MASK w endv = s.data) {v : Nat} (hv : v < endv) :
    (s.Set v).data &&& MASK w endv = (s.Set v).data := by
  apply Nat.eq_of_testBit_eq
  intro i
  rw [Nat.testBit_land, testBit_Set_data, testBit_MASK w endv i hw]
  cases hdi : s.data.testBit i with
  | true =>
    have := testBit_lt_endv_of_masked hw hs hdi
    simp [this]
  | false =>
    by_cases hvi : v = i
    · subst hvi; simp [hv, Nat.lt_of_lt_of_le hv hw]
    · simp [hvi]

/-- `Reset` preserves the masking invariant (for any argument: it only clears
bits). -/
theorem Reset_masked {s : EnumBitSet w endv} (hw : endv ≤ w)
    (hs : s.data &&& MASK w endv = s.data) (v : Nat) :
    (s.Reset v).data &&& MASK w endv = (s.Reset v).data := by
  apply Nat.eq_of_testBit_eq
  intro i
  rw [Nat.testBit_land, testBit_Reset_data, testBit_MASK w endv i hw]
  cases hdi : s.data.testBit i with
  | true =>
    have := testBit_lt_endv_of_masked hw hs hdi
    simp [this]
  | false => simp

/-- `Flip` with an in-range value preserves the masking invariant. -/
theorem Flip_masked {s : EnumBitSet w endv} (hw : endv ≤ w)
    (hs : s.data &&& MASK w endv = s.data) {v : Nat} (hv : v < endv) :
    (s.Flip v).data &&& MASK w endv = (s.Flip v).data := by
  unfold Flip
  by_cases ht : s.Test v = true
  · simp only [ht, if_true]
    exact Reset_masked hw hs v
  · simp only [Bool.not_eq_true] at ht
    simp only [ht, Bool.false_eq_true, if_false]
    exact Set_masked hw hs hv

/-- The raw-word constructor establishes the masking invariant. -/
theorem ofRaw_masked (w endv r : Nat) :
    (ofRaw r : EnumBitSet w endv).data &&& MASK w endv = (ofRaw r : EnumBitSet w endv).data :=
  land_land_self r (MASK w endv)

/-- `operator |` establishes the masking invariant (its result goes through the
masking constructor). -/
theorem or_masked (a b : EnumBitSet w endv) :
    (a.or b).data &&& MASK w endv = (a.or b).data :=
  land_land_self _ _

/-- `operator &` establishes the masking invariant. -/
theorem and_masked (a b : EnumBitSet w endv) :
    (a.and b).data &&& MASK w endv = (a.and b).data :=
  land_land_self _ _

/-- Folding `Set` over a list of in-range values preserves the masking
invariant. -/
theorem foldl_Set_masked (hw : endv ≤ w) :
    ∀ (vs : List Nat), (∀ v ∈ vs, v < endv) → ∀ (s : EnumBitSet w endv),
      s.data &&& MASK w endv = s.data →
      ((vs.foldl (fun s v => s.Set v) s).data &&& MASK w endv
        = (vs.foldl (fun s v => s.Set v) s).data)
  | [], _, s, hs => hs
  | v :: vs, hvs, s, hs => by
    simp only [List.foldl_cons]
    exact foldl_Set_masked hw vs (fun u hu => hvs u (List.mem_cons_of_mem v hu))
      (s.Set v) (Set_masked hw hs (hvs v (List.mem_cons_self v vs)))

/-- The empty bit-set satisfies the masking invariant. -/
theorem empty_masked (w endv : Nat) :
    (empty : EnumBitSet w endv).data &&& MASK w endv = (empty : EnumBitSet w endv).data :=
  Nat.zero_and _

end EnumBitSet

/-- C1: every `EnumBitSet` reachable through the public API (default
construction, construction from a single in-range enum value, from a list of
in-range enum values, or from a raw storage word, followed by any sequence of
`Set`, `Reset`, `Flip`, `operator|` and `operator&` calls with in-range
enum-value arguments) satisfies the invariant `data & MASK == data`. -/
theorem c1_reachable_invariant (w endv : Nat) (hw : endv ≤ w)
    (s : EnumBitSet w endv) (hs : EnumBitSet.Reachable w endv s) :
    s.data &&& MASK w endv = s.data := by
  induction hs with
  | ofDefault => exact EnumBitSet.empty_masked w endv
  | ofSingle v hv => exact EnumBitSet.Set_masked hw (EnumBitSet.empty_masked w endv) hv
  | ofValues vs hvs =>
    exact EnumBitSet.foldl_Set_masked hw vs hvs _ (EnumBitSet.empty_masked w endv)
  | ofWord r => exact EnumBitSet.ofRaw_masked w endv r
  | set _ v hv ih => exact EnumBitSet.Set_masked hw ih hv
  | reset _ v hv ih => exact EnumBitSet.Reset_masked hw ih v
  | flip _ v hv ih => exact EnumBitSet.Flip_masked hw ih hv
  | orOp _ t _ => exact EnumBitSet.or_masked _ t
  | andOp _ t _ => exact EnumBitSet.and_masked _ t

/-- Witness for C1 at a concrete reachable bit-set: width 8, bound 4, the set
built by `Set(1)` then `Flip(2)` from empty. -/
theorem c1_reachable_invariant_witness :
    (((EnumBitSet.empty : EnumBitSet 8 4).Set 1).Flip 2).data &&& MASK 8 4
      = (((EnumBitSet.empty : EnumBitSet 8 4).Set 1).Flip 2).data :=
  c1_reachable_invariant 8 4 (by decide) _
    (EnumBitSet.Reachable.flip (EnumBitSet.Reachable.set EnumBitSet.Reachable.ofDefault 1
      (by decide)) 2 (by decide))

/-- C2: constructing from any raw storage word `r` and reading `base()` yields
`r & MASK` (out-of-range bits silently truncated), and `IsValid()` on the
constructed bit-set holds. -/
theorem c2_ofRaw_base_isValid (w endv r : Nat) :
    (EnumBitSet.ofRaw r : EnumBitSet w endv).base = r &&& MASK w endv ∧
    (EnumBitSet.ofRaw r : EnumBitSet w endv).IsValid = true := by
  refine ⟨rfl, ?_⟩
  simp only [EnumBitSet.IsValid, beq_iff_eq]
  exact EnumBitSet.ofRaw_masked w endv r

/-- C3: for the enum `{North=0, East=1, South=2, West=3}` with 8-bit storage and
`end_value = West + 1 = 4`: `MASK = 0b0000_1111`; from an empty bit-set, after
`Set(North)` and `Set(South)`, `base() = 0b0000_0101`, `Test(East) = false`,
`All({North, South}) = true` and `Any({East, West}) = false`. -/
theorem c3_compass_scenario :
    MASK 8 4 = 15 ∧
    ((EnumBitSet.empty : EnumBitSet 8 4).Set 0 |>.Set 2).base = 5 ∧
    ((EnumBitSet.empty : EnumBitSet 8 4).Set 0 |>.Set 2).Test 1 = false ∧
    ((EnumBitSet.empty : EnumBitSet 8 4).Set 0 |>.Set 2).All (EnumBitSet.ofList [0, 2]) = true ∧
    ((EnumBitSet.empty : EnumBitSet 8 4).Set 0 |>.Set 2).Any (EnumBitSet.ofList [1, 3]) = false := by
  decide

/-- C4: for a valid enum value `v` (`to_underlying(v) < end_value`), a
default-constructed bit-set has `Test(v) = false`; and for every bit-set `s`,
after `s.Set(v)`, `Test(v)` is true while `Test(u)` for any other valid value
`u ≠ v` is unchanged. -/
theorem c4_set_test_frame (w endv v u : Nat) (s : EnumBitSet w endv)
    (hw : endv ≤ w) (hv : v < endv) (hu : u < endv) (huv : u ≠ v) :
    (EnumBitSet.empty : EnumBitSet w endv).Test v = false ∧
    (s.Set v).Test v = true ∧
    (s.Set v).Test u = s.Test u := by
  have hvw : v < w := Nat.lt_of_lt_of_le hv hw
  have huw : u < w := Nat.lt_of_lt_of_le hu hw
  refine ⟨?_, ?_, ?_⟩
  · rw [EnumBitSet.Test_eq_testBit]
    simp [EnumBitSet.empty]
  · rw [EnumBitSet.Test_eq_testBit, EnumBitSet.testBit_Set_data]
    simp [hvw]
  · rw [EnumBitSet.Test_eq_testBit, EnumBitSet.Test_eq_testBit,
      EnumBitSet.testBit_Set_data]
    have : v ≠ u := fun h => huv h.symm
    simp [huw, this]

/-- Witness for C4: width 8, bound 4, `v = 1`, `u = 2`, `s` the singleton of 2. -/
theorem c4_set_test_frame_witness :
    (EnumBitSet.empty : EnumBitSet 8 4).Test 1 = false ∧
    (((EnumBitSet.empty : EnumBitSet 8 4).Set 2).Set 1).Test 1 = true ∧
    (((EnumBitSet.empty : EnumBitSet 8 4).Set 2).Set 1).Test 2
      = ((EnumBitSet.empty : EnumBitSet 8 4).Set 2).Test 2 :=
  c4_set_test_frame 8 4 1 2 ((EnumBitSet.empty : EnumBitSet 8 4).Set 2)
    (by decide) (by decide) (by decide) (by decide)

/-- C5 counterexample: the claim "two EnumBitSet values are equal iff their
storage words are equal after masking" fails. Over width 8 with bound 4, the
bit-set obtained from empty by `Set(4)` (reachable: `Set` does not mask) and
the empty bit-set agree after masking but are not equal, because the defaulted
`operator<=>` compares the raw word. -/
theorem c5_masked_eq_counterexample :
    ((EnumBitSet.empty : EnumBitSet 8 4).Set 4).data &&& MASK 8 4
        = (EnumBitSet.empty : EnumBitSet 8 4).data &&& MASK 8 4 ∧
    ((EnumBitSet.empty : EnumBitSet 8 4).Set 4) ≠ (EnumBitSet.empty : EnumBitSet 8 4) := by
  decide

/-- C5 (amended): bit-sets are totally ordered, compared by their raw storage
word; two bit-sets are equal iff their storage words are equal exactly; and
when both satisfy the masking invariant (`IsValid`, with the declared bound
within the storage width), equality coincides with equality after masking. -/
theorem c5_order_raw_word (w endv : Nat) (a b c : EnumBitSet w endv) :
    (a.le b ↔ a.data ≤ b.data) ∧ (a.lt b ↔ a.data < b.data) ∧
    a.le a ∧ (a.le b → b.le c → a.le c) ∧ (a.le b → b.le a → a = b) ∧
    (a.le b ∨ b.le a) ∧
    (a = b ↔ a.data = b.data) ∧
    (endv ≤ w → a.IsValid = true → b.IsValid = true →
      (a = b ↔ a.data &&& MASK w endv = b.data &&& MASK w endv)) := by
  refine ⟨Iff.rfl, Iff.rfl, Nat.le_refl _, Nat.le_trans, ?_, Nat.le_total _ _, ?_, ?_⟩
  · intro h1 h2
    exact EnumBitSet.ext (Nat.le_antisymm h1 h2)
  · exact ⟨fun h => congrArg EnumBitSet.data h, EnumBitSet.ext⟩
  · intro _ ha hb
    simp only [EnumBitSet.IsValid, beq_iff_eq] at ha hb
    rw [ha, hb]
    exact ⟨fun h => congrArg EnumBitSet.data h, EnumBitSet.ext⟩

/-- Witness for C5: concrete bit-sets over width 8, bound 4. -/
theorem c5_order_raw_word_witness :
    ((EnumBitSet.ofValue 1 : EnumBitSet 8 4).le (EnumBitSet.ofValue 2) ↔
      (EnumBitSet.ofValue 1 : EnumBitSet 8 4).data ≤ (EnumBitSet.ofValue 2 : EnumBitSet 8 4).data) ∧
    ((EnumBitSet.ofValue 1 : EnumBitSet 8 4).lt (EnumBitSet.ofValue 2) ↔
      (EnumBitSet.ofValue 1 : EnumBitSet 8 4).data < (EnumBitSet.ofValue 2 : EnumBitSet 8 4).data) ∧
    (EnumBitSet.ofValue 1 : EnumBitSet 8 4).le (EnumBitSet.ofValue 1) ∧
    ((EnumBitSet.ofValue 1 : EnumBitSet 8 4).le (EnumBitSet.ofValue 2) →
      (EnumBitSet.ofValue 2 : EnumBitSet 8 4).le (EnumBitSet.ofRaw 7) →
      (EnumBitSet.ofValue 1 : EnumBitSet 8 4).le (EnumBitSet.ofRaw 7)) ∧
    ((EnumBitSet.ofValue 1 : EnumBitSet 8 4).le (EnumBitSet.ofValue 2) →
      (EnumBitSet.ofValue 2 : EnumBitSet 8 4).le (EnumBitSet.ofValue 1) →
      (EnumBitSet.ofValue 1 : EnumBitSet 8 4) = EnumBitSet.ofValue 2) ∧
    ((EnumBitSet.ofValue 1 : EnumBitSet 8 4).le (EnumBitSet.ofValue 2) ∨
      (EnumBitSet.ofValue 2 : EnumBitSet 8 4).le (EnumBitSet.ofValue 1)) ∧
    ((EnumBitSet.ofValue 1 : EnumBitSet 8 4) = EnumBitSet.ofValue 2 ↔
      (EnumBitSet.ofValue 1 : EnumBitSet 8 4).data = (EnumBitSet.ofValue 2 : EnumBitSet 8 4).data) ∧
    (4 ≤ 8 → (EnumBitSet.ofValue 1 : EnumBitSet 8 4).IsValid = true →
      (EnumBitSet.ofValue 2 : EnumBitSet 8 4).IsValid = true →
      ((EnumBitSet.ofValue 1 : EnumBitSet 8 4) = EnumBitSet.ofValue 2 ↔
        (EnumBitSet.ofValue 1 : EnumBitSet 8 4).data &&& MASK 8 4
          = (EnumBitSet.ofValue 2 : EnumBitSet 8 4).data &&& MASK 8 4)) :=
  c5_order_raw_word 8 4 (EnumBitSet.ofValue 1) (EnumBitSet.ofValue 2) (EnumBitSet.ofRaw 7)

/-- Bit `i` of the word stored by `operator|`: the disjunction of the operand
bits, truncated by the cast and masked by the constructor. -/
theorem EnumBitSet.testBit_or_data {w endv : Nat} (a b : EnumBitSet w endv) (i : Nat) :
    ((a.or b).data).testBit i
      = ((decide (i < w) && (a.data.testBit i || b.data.testBit i))
          && (MASK w endv).testBit i) := by
  simp [EnumBitSet.or, EnumBitSet.ofRaw, Nat.testBit_land, Nat.testBit_mod_two_pow,
    Nat.testBit_lor]

/-- Bit `i` of the word stored by `operator&`. -/
theorem EnumBitSet.testBit_and_data {w endv : Nat} (a b : EnumBitSet w endv) (i : Nat) :
    ((a.and b).data).testBit i
      = ((decide (i < w) && (a.data.testBit i && b.data.testBit i))
          && (MASK w endv).testBit i) := by
  simp [EnumBitSet.and, EnumBitSet.ofRaw, Nat.testBit_land, Nat.testBit_mod_two_pow]

/-- C6 counterexample: absorption `(a | b) & a == a` fails for arbitrary
operands. Over width 8 with bound 4, take `a` the bit-set obtained from empty
by `Set(4)` (its out-of-range bit survives `Set`, which does not mask) and `b`
empty: `operator|` and `operator&` mask their result, so `(a | b) & a` is
empty, not `a`. -/
theorem c6_absorption_counterexample :
    ¬ ((((EnumBitSet.empty : EnumBitSet 8 4).Set 4).or EnumBitSet.empty).and
        ((EnumBitSet.empty : EnumBitSet 8 4).Set 4)
      = (EnumBitSet.empty : EnumBitSet 8 4).Set 4) := by
  decide

/-- C6 (amended): `operator|` and `operator&` are commutative and associative
for arbitrary operands; absorption `(a | b) & a = a` holds whenever `a`
satisfies the masking invariant (`IsValid`, with the declared bound within the
storage width), `b` still arbitrary. -/
theorem c6_or_and_algebra (w endv : Nat) (a b c : EnumBitSet w endv) :
    a.or b = b.or a ∧ a.and b = b.and a ∧
    (a.or b).or c = a.or (b.or c) ∧ (a.and b).and c = a.and (b.and c) ∧
    (endv ≤ w → a.IsValid = true → (a.or b).and a = a) := by
  refine ⟨?_, ?_, ?_, ?_, ?_⟩
  · apply EnumBitSet.ext
    apply Nat.eq_of_testBit_eq
    intro i
    rw [EnumBitSet.testBit_or_data, EnumBitSet.testBit_or_data, Bool.or_comm]
  · apply EnumBitSet.ext
    apply Nat.eq_of_testBit_eq
    intro i
    rw [EnumBitSet.testBit_and_data, EnumBitSet.testBit_and_data,
      Bool.and_comm (a.data.testBit i) (b.data.testBit i)]
  · apply EnumBitSet.ext
    apply Nat.eq_of_testBit_eq
    intro i
    rw [EnumBitSet.testBit_or_data, EnumBitSet.testBit_or_data,
      EnumBitSet.testBit_or_data, EnumBitSet.testBit_or_data]
    by_cases hiw : i < w <;> by_cases hm : (MASK w endv).testBit i = true <;>
      simp [hiw, hm, Bool.or_assoc]
  · apply EnumBitSet.ext
    apply Nat.eq_of_testBit_eq
    intro i
    rw [EnumBitSet.testBit_and_data, EnumBitSet.testBit_and_data,
      EnumBitSet.testBit_and_data, EnumBitSet.testBit_and_data]
    by_cases hiw : i < w <;> by_cases hm : (MASK w endv).testBit i = true <;>
      simp [hiw, hm, Bool.and_assoc]
  · intro hw ha
    simp only [EnumBitSet.IsValid, beq_iff_eq] at ha
    apply EnumBitSet.ext
    apply Nat.eq_of_testBit_eq
    intro i
    rw [EnumBitSet.testBit_and_data, EnumBitSet.testBit_or_data]
    cases hai : a.data.testBit i with
    | true =>
      have hie : i < endv := EnumBitSet.testBit_lt_endv_of_masked hw ha hai
      have hiw : i < w := Nat.lt_of_lt_of_le hie hw
      simp [hiw, EnumBitSet.testBit_MASK w endv i hw, hie]
    | false => simp

/-- Witness for C6: concrete operands over width 8, bound 4, with the
absorption hypotheses discharged for a valid `a`. -/
theorem c6_or_and_algebra_witness :
    (EnumBitSet.ofValue 1 : EnumBitSet 8 4).or (EnumBitSet.ofValue 2)
        = (EnumBitSet.ofValue 2 : EnumBitSet 8 4).or (EnumBitSet.ofValue 1) ∧
    (EnumBitSet.ofValue 1 : EnumBitSet 8 4).and (EnumBitSet.ofValue 2)
        = (EnumBitSet.ofValue 2 : EnumBitSet 8 4).and (EnumBitSet.ofValue 1) ∧
    ((EnumBitSet.ofValue 1 : EnumBitSet 8 4).or (EnumBitSet.ofValue 2)).or (EnumBitSet.ofRaw 9)
        = (EnumBitSet.ofValue 1 : EnumBitSet 8 4).or
            ((EnumBitSet.ofValue 2).or (EnumBitSet.ofRaw 9)) ∧
    ((EnumBitSet.ofValue 1 : EnumBitSet 8 4).and (EnumBitSet.ofValue 2)).and (EnumBitSet.ofRaw 9)
        = (EnumBitSet.ofValue 1 : EnumBitSet 8 4).and
            ((EnumBitSet.ofValue 2).and (EnumBitSet.ofRaw 9)) ∧
    (4 ≤ 8 → (EnumBitSet.ofValue 1 : EnumBitSet 8 4).IsValid = true →
      ((EnumBitSet.ofValue 1 : EnumBitSet 8 4).or (EnumBitSet.ofValue 2)).and
          (EnumBitSet.ofValue 1)
        = (EnumBitSet.ofValue 1 : EnumBitSet 8 4)) :=
  c6_or_and_algebra 8 4 (EnumBitSet.ofValue 1) (EnumBitSet.ofValue 2) (EnumBitSet.ofRaw 9)

/-- C7: for every bit-set `s` (any storage word of the storage type, of width
at most 64 bits) and every valid enum value `v`, flipping `v` twice restores
`s`. -/
theorem c7_flip_involutive (w endv v : Nat) (s : EnumBitSet w endv)
    (hw64 : w ≤ 64) (hs : s.data < 2 ^ w) (hv : v < endv) (hw : endv ≤ w) :
    (s.Flip v).Flip v = s := by
  have hvw : v < w := Nat.lt_of_lt_of_le hv hw
  have hv64 : v < 64 := Nat.lt_of_lt_of_le hvw hw64
  have hout : ∀ i, ¬ i < w → s.data.testBit i = false := by
    intro i hi
    exact Nat.testBit_eq_false_of_lt
      (Nat.lt_of_lt_of_le hs (Nat.pow_le_pow_right (by omega) (by omega)))
  cases htv : s.Test v with
  | true =>
    have hbv : s.data.testBit v = true := by rwa [EnumBitSet.Test_eq_testBit] at htv
    have h1 : s.Flip v = s.Reset v := by simp [EnumBitSet.Flip, htv]
    have h2 : (s.Reset v).Test v = false := by
      rw [EnumBitSet.Test_eq_testBit, EnumBitSet.testBit_Reset_data]
      simp [hvw, hv64]
    rw [h1]
    simp only [EnumBitSet.Flip, h2, Bool.false_eq_true, if_false]
    apply EnumBitSet.ext
    apply Nat.eq_of_testBit_eq
    intro i
    rw [EnumBitSet.testBit_Set_data, EnumBitSet.testBit_Reset_data]
    by_cases hiw : i < w
    · have hi64 : i < 64 := Nat.lt_of_lt_of_le hiw hw64
      by_cases hvi : v = i
      · subst hvi
        simp [hvw, hv64, hbv]
      · simp [hiw, hi64, hvi]
    · simp [hiw, hout i hiw]
  | false =>
    have hbv : s.data.testBit v = false := by rwa [EnumBitSet.Test_eq_testBit] at htv
    have h1 : s.Flip v = s.Set v := by simp [EnumBitSet.Flip, htv]
    have h2 : (s.Set v).Test v = true := by
      rw [EnumBitSet.Test_eq_testBit, EnumBitSet.testBit_Set_data]
      simp [hvw]
    rw [h1]
    simp only [EnumBitSet.Flip, h2, if_true]
    apply EnumBitSet.ext
    apply Nat.eq_of_testBit_eq
    intro i
    rw [EnumBitSet.testBit_Reset_data, EnumBitSet.testBit_Set_data]
    by_cases hiw : i < w
    · have hi64 : i < 64 := Nat.lt_of_lt_of_le hiw hw64
      by_cases hvi : v = i
      · subst hvi
        simp [hvw, hv64, hbv]
      · simp [hiw, hi64, hvi]
    · simp [hiw, hout i hiw]

/-- Witness for C7: width 8, bound 4, flipping value 2 twice on the singleton
bit-set of value 1. -/
theorem c7_flip_involutive_witness :
    (((EnumBitSet.ofValue 1 : EnumBitSet 8 4).Flip 2).Flip 2)
      = (EnumBitSet.ofValue 1 : EnumBitSet 8 4) :=
  c7_flip_involutive 8 4 2 (EnumBitSet.ofValue 1)
    (by decide) (by decide) (by decide) (by decide)

/-- C8: the initializer-list constructor on `[a, b, c]` equals default
construction followed by `Set(a); Set(b); Set(c)` in that order, and `Set` is
idempotent on a repeated value, so duplicates in the list are harmless. -/
theorem c8_list_constructor_roundtrip (w endv a b c : Nat)
    (s : EnumBitSet w endv) (v : Nat) :
    (EnumBitSet.ofList [a, b, c] : EnumBitSet w endv)
        = ((EnumBitSet.empty.Set a).Set b).Set c ∧
    (s.Set v).Set v = s.Set v := by
  refine ⟨rfl, ?_⟩
  apply EnumBitSet.ext
  apply Nat.eq_of_testBit_eq
  intro i
  rw [EnumBitSet.testBit_Set_data, EnumBitSet.testBit_Set_data]
  by_cases hiw : i < w <;> by_cases hvi : v = i <;> simp [hiw, hvi]

/-- C9: for an enum that opted into increment/decrement and a value strictly
inside the declared range `[0, n)` (so neither step overflows the range),
prefix increment then prefix decrement returns to the original value (and
symmetrically); each postfix form returns the pre-mutation value while
delegating the mutation to the corresponding prefix form. -/
theorem c9_inc_dec_roundtrip (n e : Int) (_h1 : 0 < e) (_h2 : e + 1 < n) :
    prefixDec (prefixInc e) = e ∧ prefixInc (prefixDec e) = e ∧
    postfixInc e = (e, prefixInc e) ∧ postfixDec e = (e, prefixDec e) := by
  refine ⟨?_, ?_, rfl, rfl⟩ <;> simp [prefixInc, prefixDec]

/-- Witness for C9: range bound 4, value 1. -/
theorem c9_inc_dec_roundtrip_witness :
    prefixDec (prefixInc 1) = 1 ∧ prefixInc (prefixDec 1) = 1 ∧
    postfixInc 1 = (1, prefixInc 1) ∧ postfixDec 1 = (1, prefixDec 1) :=
  c9_inc_dec_roundtrip 4 1 (by decide) (by decide)

/-- C10: unlike the raw-storage constructor, `Set` does not mask its input —
for a bound smaller than the storage width and an enum value `v` with
`end_value ≤ to_underlying(v) < digits(storage_type)`, `Set(v)` on an empty
bit-set yields `IsValid() = false` and a `base()` word with a bit set outside
`MASK`. -/
theorem c10_set_does_not_mask (w endv v : Nat) (hv1 : endv ≤ v) (hv2 : v < w) :
    ((EnumBitSet.empty : EnumBitSet w endv).Set v).IsValid = false ∧
    (((EnumBitSet.empty : EnumBitSet w endv).Set v).base).testBit v = true ∧
    (MASK w endv).testBit v = false := by
  have hw : endv ≤ w := by omega
  have hbase : (((EnumBitSet.empty : EnumBitSet w endv).Set v).data).testBit v = true := by
    rw [EnumBitSet.testBit_Set_data]
    simp [hv2]
  have hmask : (MASK w endv).testBit v = false := by
    rw [EnumBitSet.testBit_MASK w endv v hw]
    simp
    omega
  refine ⟨?_, hbase, hmask⟩
  simp only [EnumBitSet.IsValid, beq_eq_false_iff_ne, ne_eq]
  intro hcontra
  have hbit := congrArg (fun x => x.testBit v) hcontra
  simp only [Nat.testBit_land, hmask, hbase, Bool.and_false] at hbit
  exact Bool.false_ne_true hbit

/-- Witness for C10: width 8, bound 4, setting value 5. -/
theorem c10_set_does_not_mask_witness :
    ((EnumBitSet.empty : EnumBitSet 8 4).Set 5).IsValid = false ∧
    (((EnumBitSet.empty : EnumBitSet 8 4).Set 5).base).testBit 5 = true ∧
    (MASK 8 4).testBit 5 = false :=
  c10_set_does_not_mask 8 4 5 (by decide) (by decide)

end EnumTypeHpp
